import Mathlib

/-!
Shallow embedding of `src/seqqueue/seqthreadqueue.py` (`class SeqQueue(Queue)`).

The queue stores `(index, item)` pairs in a min-heap ordered by index
(`heappush`/`heappop` on `self.queue`); `self._index_shift` is the delivery
cursor; `self._waiting_to_put` is a min-heap of `(index, condition)` pairs for
producers blocked in `put`.  We model both heaps as index-sorted lists: for a
binary min-heap the observable operations (push, pop-min, peek-min) coincide
with ordered-list insertion and head removal.  Python breaks index ties by
comparing the second tuple component; ties never arise in the states the
claims quantify over, and the model keeps ties in insertion order.  Wait
handles (`Condition` objects) are modelled as `Nat` identifiers.  Timeouts are
floats in Python; only their sign is inspected while the lock is held, so the
model uses `Int`.  Blocking paths are modelled by an explicit `waiting`
outcome (the thread suspends) plus a separate resumption function for the
timed `put` path, which is the only resumption that re-inspects state.
-/

namespace SeqQueueModel

/-- Errors surfaced by queue operations: `queue.Full`, `queue.Empty`, and
`ValueError` for a negative timeout. -/
inductive QErr
  | full
  | empty
  | invalidArg
deriving DecidableEq

/-- State of a `SeqQueue` instance: `maxsize` (from `Queue.__init__`),
`indexShift` (`self._index_shift`, the cursor), `queue` (`self.queue`, the
entry min-heap as an index-sorted list), `waitingToPut`
(`self._waiting_to_put`, the waiter min-heap as an index-sorted list of
`(index, wait-handle)` pairs), and `unfinishedTasks`
(`self.unfinished_tasks`). -/
structure SeqQueue (α : Type) where
  maxsize : Int
  indexShift : Int
  queue : List (Int × α)
  waitingToPut : List (Int × Nat)
  unfinishedTasks : Nat
deriving DecidableEq

/-- `SeqQueue.__init__(maxsize, start_index)`: cursor starts at
`start_index`, both heaps empty, `unfinished_tasks = 0`. -/
def mkSeqQueue (α : Type) (maxsize start_index : Int) : SeqQueue α :=
  { maxsize := maxsize
    indexShift := start_index
    queue := []
    waitingToPut := []
    unfinishedTasks := 0 }

/-- `heappush` on a heap of pairs ordered by first component, modelled as
sorted-list insertion. -/
def heapPushEntry {α : Type} : List (Int × α) → (Int × α) → List (Int × α)
  | [], e => [e]
  | x :: xs, e => if e.1 < x.1 then e :: x :: xs else x :: heapPushEntry xs e

/-- `_slot_empty(index)`: `(index - self._index_shift) < self.maxsize`. -/
def slot_empty {α : Type} (q : SeqQueue α) (index : Int) : Bool :=
  index - q.indexShift < q.maxsize

/-- `_slot_ready()`: `self._qsize() and self.queue[0][0] - self._index_shift == 0`. -/
def slot_ready {α : Type} (q : SeqQueue α) : Bool :=
  match q.queue with
  | [] => false
  | e :: _ => e.1 - q.indexShift == 0

/-- `_qsize()`: `len(self.queue)`. -/
def qsize {α : Type} (q : SeqQueue α) : Nat :=
  q.queue.length

/-- The insertion tail of `put`: `self._put(item)` (a `heappush`) followed by
`self.unfinished_tasks += 1`.  The trailing `self.not_empty.notify()` has no
state effect in the model. -/
def doInsert {α : Type} (q : SeqQueue α) (item : Int × α) : SeqQueue α :=
  { q with
    queue := heapPushEntry q.queue item
    unfinishedTasks := q.unfinishedTasks + 1 }

/-- Outcome of entering `put` while holding the lock. -/
inductive PutOutcome (α : Type)
  | inserted (q : SeqQueue α)
  | fullErr (q : SeqQueue α)
  | invalidErr (q : SeqQueue α)
  | waiting (q : SeqQueue α)
deriving DecidableEq

/-- The state carried by a `put` outcome. -/
def PutOutcome.state {α : Type} : PutOutcome α → SeqQueue α
  | .inserted q => q
  | .fullErr q => q
  | .invalidErr q => q
  | .waiting q => q

/-- `put(item, block, timeout)` up to the first suspension point.  Mirrors the
branch structure of the source: the whole admissibility/timeout analysis is
guarded by `if self.maxsize > 0`, `raise Full` precedes any mutation in the
non-blocking branch, `raise ValueError` fires for a negative timeout only
inside the `maxsize > 0` guard, and a blocked producer pushes
`(index, slot_empty)` onto `self._waiting_to_put` before waiting.  `h` is the
fresh wait-handle identifier standing for this call's `Condition` object. -/
def putEnter {α : Type} (q : SeqQueue α) (item : Int × α) (block : Bool)
    (timeout : Option Int) (h : Nat) : PutOutcome α :=
  if q.maxsize > 0 then
    if block = false then
      if slot_empty q item.1 then .inserted (doInsert q item) else .fullErr q
    else
      match timeout with
      | none =>
        if slot_empty q item.1 then .inserted (doInsert q item)
        else .waiting { q with waitingToPut := heapPushEntry q.waitingToPut (item.1, h) }
      | some t =>
        if t < 0 then .invalidErr q
        else if slot_empty q item.1 then .inserted (doInsert q item)
        else .waiting { q with waitingToPut := heapPushEntry q.waitingToPut (item.1, h) }
  else .inserted (doInsert q item)

/-- `self._waiting_to_put.index((index, slot_empty))` followed by
`.pop(cond_index)`: remove the first occurrence of `p`, returning `none` when
absent (Python would raise `ValueError`; unreachable in the protocol).  The
subsequent `heapify` is the identity on the sorted-list model. -/
def removeWaiter : List (Int × Nat) → (Int × Nat) → Option (List (Int × Nat))
  | [], _ => none
  | w :: ws, p => if w = p then some ws else (removeWaiter ws p).map (w :: ·)

/-- Resumption of a timed `put` after `slot_empty.wait(timeout)` returns,
evaluated on the state `q` found on reacquiring the lock: re-check
`_slot_empty`; if still inadmissible, remove this call's own
`(index, handle)` registration and raise `Full`, otherwise fall through to
the insertion tail. -/
def putResumeTimed {α : Type} (q : SeqQueue α) (item : Int × α) (h : Nat) :
    Option (PutOutcome α) :=
  if slot_empty q item.1 then some (.inserted (doInsert q item))
  else
    match removeWaiter q.waitingToPut (item.1, h) with
    | none => none
    | some ws => some (.fullErr { q with waitingToPut := ws })

/-- Outcome of entering `get` while holding the lock. -/
inductive GetOutcome (α : Type)
  | got (e : Int × α) (q : SeqQueue α)
  | emptyErr (q : SeqQueue α)
  | invalidErr (q : SeqQueue α)
  | waiting (q : SeqQueue α)
deriving DecidableEq

/-- The state carried by a `get` outcome. -/
def GetOutcome.state {α : Type} : GetOutcome α → SeqQueue α
  | .got _ q => q
  | .emptyErr q => q
  | .invalidErr q => q
  | .waiting q => q

/-- The producer-notification step after `item = self._get()`: if
`self._waiting_to_put` is non-empty and its minimum waiter's index is now
admissible, `heappop` that waiter (and notify it); the `elif
self._slot_ready(): self.not_empty.notify()` branch has no state effect. -/
def popNotify {α : Type} (q : SeqQueue α) : SeqQueue α :=
  match q.waitingToPut with
  | [] => q
  | w :: ws => if slot_empty q w.1 then { q with waitingToPut := ws } else q

/-- The success tail of `get`: `item = self._get()` (pop the heap minimum and
`self._index_shift += 1`) followed by the producer notification step.  Only
invoked when `_slot_ready()` holds, so the storage is non-empty. -/
def getPop {α : Type} (q : SeqQueue α) : GetOutcome α :=
  match q.queue with
  | [] => .emptyErr q
  | e :: rest =>
    .got e (popNotify { q with queue := rest, indexShift := q.indexShift + 1 })

/-- `get(block, timeout)` up to the first suspension point, mirroring the
source's branch structure: non-blocking raises `Empty` when not ready;
blocking with no timeout waits; a negative timeout raises `ValueError`
unconditionally (this check is NOT guarded by `maxsize`, unlike `put`); a
non-negative timeout enters the deadline wait loop when not ready. -/
def getEnter {α : Type} (q : SeqQueue α) (block : Bool) (timeout : Option Int) :
    GetOutcome α :=
  if block = false then
    if slot_ready q then getPop q else .emptyErr q
  else
    match timeout with
    | none => if slot_ready q then getPop q else .waiting q
    | some t =>
      if t < 0 then .invalidErr q
      else if slot_ready q then getPop q else .waiting q

/-- An operation in a sequential trace: a `put` of one entry, a `get`, or a
`qsize` query. -/
inductive Op (α : Type)
  | put (item : Int × α)
  | get
  | size
deriving DecidableEq

/-- Run a trace of non-blocking operations, collecting the entries returned
by `get`; `none` when any operation fails, so a `some` result means every
`put` and every `get` in the trace succeeded. -/
def runOps {α : Type} : SeqQueue α → List (Op α) → Option (SeqQueue α × List (Int × α))
  | q, [] => some (q, [])
  | q, .put item :: ops =>
    match putEnter q item false none 0 with
    | .inserted q' => runOps q' ops
    | _ => none
  | q, .get :: ops =>
    match getEnter q false none with
    | .got e q' => (runOps q' ops).map (fun r => (r.1, e :: r.2))
    | _ => none
  | q, .size :: ops => runOps q ops

/-- One non-blocking operation as a total state transformer: a failing
operation raises and leaves the state unchanged (the raised error carries the
untouched state). -/
def stepT {α : Type} (q : SeqQueue α) : Op α → SeqQueue α
  | .put item => (putEnter q item false none 0).state
  | .get => (getEnter q false none).state
  | .size => q

/-- Run a trace of non-blocking operations as total state transformers. -/
def runT {α : Type} (q : SeqQueue α) : List (Op α) → SeqQueue α
  | [] => q
  | op :: ops => runT (stepT q op) ops

/-- The entries inserted by the `put` operations of a trace, in trace order. -/
def putsOf {α : Type} : List (Op α) → List (Int × α)
  | [] => []
  | .put item :: ops => item :: putsOf ops
  | .get :: ops => putsOf ops
  | .size :: ops => putsOf ops

/-- The number of `get` operations in a trace. -/
def numGets {α : Type} : List (Op α) → Nat
  | [] => 0
  | .get :: ops => numGets ops + 1
  | .put _ :: ops => numGets ops
  | .size :: ops => numGets ops

/-- The list `[s, s+1, ..., s+n-1]` of consecutive integers. -/
def intRange (s : Int) : Nat → List Int
  | 0 => []
  | n + 1 => s :: intRange (s + 1) n

/-- Storage is sorted by index (non-strictly): the sorted-list rendering of
the heap invariant. -/
def StorageSortedLe {α : Type} (q : SeqQueue α) : Prop :=
  q.queue.Pairwise (fun a b => a.1 ≤ b.1)

/-- Storage is strictly sorted by index: the heap invariant plus index
uniqueness. -/
def StorageSortedLt {α : Type} (q : SeqQueue α) : Prop :=
  q.queue.Pairwise (fun a b => a.1 < b.1)

/-- The waiting-producers registry is sorted by index. -/
def RegSorted {α : Type} (q : SeqQueue α) : Prop :=
  q.waitingToPut.Pairwise (fun a b => a.1 ≤ b.1)

/-- Every stored entry's index lies in the capacity window
`[cursor, cursor + maxsize)`. -/
def InWindow {α : Type} (q : SeqQueue α) : Prop :=
  ∀ e ∈ q.queue, q.indexShift ≤ e.1 ∧ e.1 < q.indexShift + q.maxsize

/-- Some stored entry's index is strictly below the cursor. -/
def Wedged {α : Type} (q : SeqQueue α) : Prop :=
  ∃ e ∈ q.queue, e.1 < q.indexShift

/-- Per-step rendering of the C6 precondition: each `put` in the trace
inserts an index that is at least the cursor and not currently stored (for a
trace whose inserted indices are globally unique and never below the cursor,
an index being fresh among stored entries is forced, since already-delivered
indices are strictly below the cursor). -/
def putsOk {α : Type} : SeqQueue α → List (Op α) → Bool
  | _, [] => true
  | q, .put item :: ops =>
    decide (q.indexShift ≤ item.1 ∧ item.1 ∉ q.queue.map Prod.fst)
      && putsOk (stepT q (.put item)) ops
  | q, .get :: ops => putsOk (stepT q .get) ops
  | q, .size :: ops => putsOk (stepT q .size) ops

/-- Spec-side admissibility ("Capacity window", §3 of the spec): index `i` is
admissible iff `maxsize ≤ 0` or `i − cursor < maxsize`. -/
def admissibleSpec {α : Type} (q : SeqQueue α) (i : Int) : Prop :=
  q.maxsize ≤ 0 ∨ i - q.indexShift < q.maxsize

/-- Concrete state: bounded queue holding only out-of-order entries. -/
def wq3 : SeqQueue Nat := ⟨3, 0, [(1, 11), (2, 22)], [], 2⟩

/-- Concrete state: one-slot queue whose single slot is occupied. -/
def wq5 : SeqQueue Nat := ⟨1, 0, [(0, 42)], [], 1⟩

/-- Concrete state: `wq5` with a producer of index 1 registered. -/
def wq5r : SeqQueue Nat := ⟨1, 0, [(0, 42)], [(1, 5)], 1⟩

/-- Concrete state: bounded queue with the cursor entry present. -/
def wq7 : SeqQueue Nat := ⟨3, 0, [(0, 5)], [], 1⟩

/-- Concrete state: full one-slot queue with one registered producer. -/
def wq8 : SeqQueue Nat := ⟨1, 0, [(0, 5)], [(1, 9)], 2⟩

/-- Concrete state: `wq8` after a successful get popped entry and waiter. -/
def wq8' : SeqQueue Nat := ⟨1, 1, [], [], 2⟩

/-- Concrete state: fresh bounded queue after puts of indices 1 and 2. -/
def wq9 : SeqQueue Nat := ⟨3, 0, [(1, 10), (2, 20)], [], 2⟩

/-- Concrete state: queue wedged by a stored index (0) below the cursor (5). -/
def wq10 : SeqQueue Nat := ⟨3, 5, [(0, 9)], [], 1⟩

/-! ## Basic lemmas about the heap model and the operation dispatchers -/

theorem heapPushEntry_perm {α : Type} (l : List (Int × α)) (e : Int × α) :
    (heapPushEntry l e).Perm (e :: l) := by
  induction l with
  | nil => simp [heapPushEntry]
  | cons x xs ih =>
    simp only [heapPushEntry]
    by_cases h : e.1 < x.1
    · simp [h]
    · simp only [h, if_false]
      exact (ih.cons x).trans (List.Perm.swap e x xs)

theorem mem_heapPushEntry {α : Type} {l : List (Int × α)} {e b : Int × α} :
    b ∈ heapPushEntry l e ↔ b = e ∨ b ∈ l := by
  rw [(heapPushEntry_perm l e).mem_iff, List.mem_cons]

theorem heapPushEntry_pairwise_le {α : Type} {l : List (Int × α)} (e : Int × α)
    (hl : l.Pairwise (fun a b => a.1 ≤ b.1)) :
    (heapPushEntry l e).Pairwise (fun a b => a.1 ≤ b.1) := by
  induction l with
  | nil => simp [heapPushEntry]
  | cons x xs ih =>
    rcases List.pairwise_cons.1 hl with ⟨hx, hxs⟩
    simp only [heapPushEntry]
    by_cases h : e.1 < x.1
    · simp only [h, if_true]
      refine List.pairwise_cons.2 ⟨?_, hl⟩
      intro b hb
      rcases List.mem_cons.1 hb with rfl | hb
      · exact le_of_lt h
      · exact le_trans (le_of_lt h) (hx b hb)
    · simp only [h, if_false]
      refine List.pairwise_cons.2 ⟨?_, ih hxs⟩
      intro b hb
      rcases mem_heapPushEntry.1 hb with rfl | hb
      · exact le_of_not_lt h
      · exact hx b hb

theorem heapPushEntry_pairwise_lt {α : Type} {l : List (Int × α)} {e : Int × α}
    (hl : l.Pairwise (fun a b => a.1 < b.1)) (hfresh : ∀ x ∈ l, x.1 ≠ e.1) :
    (heapPushEntry l e).Pairwise (fun a b => a.1 < b.1) := by
  induction l with
  | nil => simp [heapPushEntry]
  | cons x xs ih =>
    rcases List.pairwise_cons.1 hl with ⟨hx, hxs⟩
    simp only [heapPushEntry]
    by_cases h : e.1 < x.1
    · simp only [h, if_true]
      refine List.pairwise_cons.2 ⟨?_, hl⟩
      intro b hb
      rcases List.mem_cons.1 hb with rfl | hb
      · exact h
      · exact lt_trans h (hx b hb)
    · simp only [h, if_false]
      refine List.pairwise_cons.2 ⟨?_, ih hxs (fun y hy => hfresh y (List.mem_cons_of_mem x hy))⟩
      intro b hb
      rcases mem_heapPushEntry.1 hb with rfl | hb
      · exact lt_of_le_of_ne (le_of_not_lt h) (hfresh x (List.mem_cons_self x xs))
      · exact hx b hb

theorem slot_empty_iff {α : Type} (q : SeqQueue α) (i : Int) :
    slot_empty q i = true ↔ i - q.indexShift < q.maxsize := by
  simp [slot_empty]

theorem slot_ready_iff {α : Type} (q : SeqQueue α) :
    slot_ready q = true ↔ ∃ e rest, q.queue = e :: rest ∧ e.1 = q.indexShift := by
  cases hq : q.queue with
  | nil => simp [slot_ready, hq]
  | cons e rest =>
    simp [slot_ready, hq, sub_eq_zero]

theorem putEnter_false_eq {α : Type} (q : SeqQueue α) (item : Int × α) (h : Nat) :
    putEnter q item false none h =
      if q.maxsize > 0 ∧ slot_empty q item.1 = false then .fullErr q
      else .inserted (doInsert q item) := by
  by_cases hm : q.maxsize > 0 <;> by_cases hs : slot_empty q item.1 = true <;>
    simp_all [putEnter]

theorem getEnter_false_eq {α : Type} (q : SeqQueue α) :
    getEnter q false none = if slot_ready q then getPop q else .emptyErr q := by
  simp [getEnter]

theorem removeWaiter_eq_erase {R : List (Int × Nat)} {p : Int × Nat} (hp : p ∈ R) :
    removeWaiter R p = some (R.erase p) := by
  induction R with
  | nil => cases hp
  | cons x xs ih =>
    by_cases hx : x = p
    · subst hx
      simp [removeWaiter]
    · have hm : p ∈ xs := by
        rcases List.mem_cons.1 hp with h0 | h0
        · exact absurd h0.symm hx
        · exact h0
      have herase : (x :: xs).erase p = x :: xs.erase p :=
        List.erase_cons_tail (by simpa using hx)
      simp [removeWaiter, hx, ih hm, herase]

theorem removeWaiter_heapPushEntry {R : List (Int × Nat)} {p : Int × Nat} (hp : p ∉ R) :
    removeWaiter (heapPushEntry R p) p = some R := by
  induction R with
  | nil => simp [heapPushEntry, removeWaiter]
  | cons x xs ih =>
    have hx : x ≠ p := fun h0 => hp (h0 ▸ List.mem_cons_self x xs)
    simp only [heapPushEntry]
    by_cases h0 : p.1 < x.1
    · simp [h0, removeWaiter]
    · simp only [h0, if_false, removeWaiter, hx, if_neg]
      rw [ih (fun hm => hp (List.mem_cons_of_mem x hm))]
      rfl

/-! ## Claims -/

/-- C2: for every queue state, an index is admissible for insertion iff
`maxsize ≤ 0` or `index − cursor < maxsize`; with `maxsize > 0`,
`put(block=false)` inserts the entry iff its index is admissible and raises
`Full` otherwise; with `maxsize ≤ 0` every `put` (any `block`/`timeout`)
inserts immediately with no admissibility check. -/
theorem claim2_capacity_window {α : Type} (q : SeqQueue α) (item : Int × α) (h : Nat) :
    (q.maxsize > 0 →
      (putEnter q item false none h = .inserted (doInsert q item) ↔
        admissibleSpec q item.1) ∧
      (¬ admissibleSpec q item.1 → putEnter q item false none h = .fullErr q)) ∧
    (q.maxsize ≤ 0 →
      ∀ (block : Bool) (timeout : Option Int) (h' : Nat),
        putEnter q item block timeout h' = .inserted (doInsert q item)) := by
  constructor
  · intro hm
    have hiff : admissibleSpec q item.1 ↔ slot_empty q item.1 = true := by
      simp [admissibleSpec, slot_empty_iff]
      omega
    constructor
    · rw [putEnter_false_eq, hiff]
      by_cases hs : slot_empty q item.1 = true <;> simp_all
    · intro hna
      rw [putEnter_false_eq]
      have : slot_empty q item.1 = false := by
        rcases Bool.eq_false_or_eq_true (slot_empty q item.1) with h0 | h0
        · exact absurd (hiff.2 h0) hna
        · exact h0
      simp [hm, this]
  · intro hm block timeout h'
    have hnm : ¬ q.maxsize > 0 := not_lt.2 hm
    simp [putEnter, hnm]

/-- C2 witness: the conclusion at a bounded queue with one free slot. -/
theorem claim2_capacity_window_witness :
    (((mkSeqQueue Nat 2 0).maxsize > 0 →
      (putEnter (mkSeqQueue Nat 2 0) (1, 5) false none 0 =
          .inserted (doInsert (mkSeqQueue Nat 2 0) (1, 5)) ↔
        admissibleSpec (mkSeqQueue Nat 2 0) (1, 5).1) ∧
      (¬ admissibleSpec (mkSeqQueue Nat 2 0) (1, 5).1 →
        putEnter (mkSeqQueue Nat 2 0) (1, 5) false none 0 = .fullErr (mkSeqQueue Nat 2 0))) ∧
    ((mkSeqQueue Nat 2 0).maxsize ≤ 0 →
      ∀ (block : Bool) (timeout : Option Int) (h' : Nat),
        putEnter (mkSeqQueue Nat 2 0) (1, 5) block timeout h' =
          .inserted (doInsert (mkSeqQueue Nat 2 0) (1, 5)))) :=
  claim2_capacity_window (mkSeqQueue Nat 2 0) (1, 5) 0

/-- C3: `get(block=false)` succeeds and returns the minimum-index entry when
storage is non-empty and its minimum (head) index equals the cursor; in every
other case — storage empty, or head index differing from the cursor, in
particular when every stored index is strictly greater than the cursor — it
raises `Empty` and returns the state entirely unchanged (cursor, storage and
waiting-producers registry included). -/
theorem claim3_readiness {α : Type} (q : SeqQueue α) (hs : StorageSortedLe q) :
    (∀ e rest, q.queue = e :: rest → e.1 = q.indexShift →
       (∀ x ∈ q.queue, e.1 ≤ x.1) ∧ ∃ q', getEnter q false none = .got e q') ∧
    ((¬ ∃ e rest, q.queue = e :: rest ∧ e.1 = q.indexShift) →
       getEnter q false none = .emptyErr q) ∧
    (q.queue ≠ [] → (∀ x ∈ q.queue, q.indexShift < x.1) →
       getEnter q false none = .emptyErr q) := by
  refine ⟨?_, ?_, ?_⟩
  · intro e rest hq he
    constructor
    · intro x hx
      rw [hq] at hx
      rcases List.mem_cons.1 hx with rfl | hx
      · exact le_refl _
      · unfold StorageSortedLe at hs
        rw [hq] at hs
        exact (List.pairwise_cons.1 hs).1 x hx
    · have hready : slot_ready q = true := (slot_ready_iff q).2 ⟨e, rest, hq, he⟩
      rw [getEnter_false_eq, if_pos hready]
      unfold getPop
      rw [hq]
      exact ⟨_, rfl⟩
  · intro hne
    have : slot_ready q = false := by
      rcases Bool.eq_false_or_eq_true (slot_ready q) with h0 | h0
      · exact absurd ((slot_ready_iff q).1 h0) (by simpa using hne)
      · exact h0
    rw [getEnter_false_eq, this]
    simp
  · intro hne hgt
    have : ¬ ∃ e rest, q.queue = e :: rest ∧ e.1 = q.indexShift := by
      rintro ⟨e, rest, hq, he⟩
      have := hgt e (by rw [hq]; exact List.mem_cons_self e rest)
      omega
    rcases Bool.eq_false_or_eq_true (slot_ready q) with h0 | h0
    · exact absurd ((slot_ready_iff q).1 h0) this
    · rw [getEnter_false_eq, h0]; simp

/-- C3 witness: a queue storing only indices strictly above the cursor. -/
theorem claim3_readiness_witness :
    StorageSortedLe wq3 ∧
    ((¬ ∃ e rest, wq3.queue = e :: rest ∧ e.1 = wq3.indexShift) →
      getEnter wq3 false none = .emptyErr wq3) :=
  ⟨by unfold StorageSortedLe wq3; decide,
   (claim3_readiness wq3 (by unfold StorageSortedLe wq3; decide)).2.1⟩

/-- C4 counterexample: on an unbounded queue (`maxsize = 0`), a `put` with
`block=true` and the negative timeout `-1` does not fail with `ValueError`:
the negative-timeout validation sits inside the `maxsize > 0` guard, so the
entry is inserted. -/
theorem claim4_counterexample :
    putEnter (mkSeqQueue Nat 0 0) (5, 7) true (some (-1)) 0 =
      .inserted (doInsert (mkSeqQueue Nat 0 0) (5, 7)) := by
  decide

/-- C4 (amended): a `get` with `block=true` and a negative timeout always
fails with `ValueError` leaving the state unchanged; a `put` with
`block=true` and a negative timeout fails with `ValueError` leaving the state
unchanged when `maxsize > 0`, but when `maxsize ≤ 0` the negative timeout is
not validated and `put` inserts the entry immediately. -/
theorem claim4_negative_timeout {α : Type} (q : SeqQueue α) (item : Int × α)
    (t : Int) (h : Nat) (ht : t < 0) :
    getEnter q true (some t) = .invalidErr q ∧
    (q.maxsize > 0 → putEnter q item true (some t) h = .invalidErr q) ∧
    (q.maxsize ≤ 0 → putEnter q item true (some t) h = .inserted (doInsert q item)) := by
  refine ⟨?_, ?_, ?_⟩
  · simp [getEnter, ht]
  · intro hm
    simp [putEnter, hm, ht]
  · intro hm
    simp [putEnter, not_lt.2 hm]

/-- C4 witness: the amended statement at a bounded queue and timeout `-1`. -/
theorem claim4_negative_timeout_witness :
    ((-1 : Int) < 0) ∧
    (getEnter (mkSeqQueue Nat 2 0) true (some (-1)) = .invalidErr (mkSeqQueue Nat 2 0) ∧
     ((mkSeqQueue Nat 2 0).maxsize > 0 →
        putEnter (mkSeqQueue Nat 2 0) (1, 5) true (some (-1)) 3 = .invalidErr (mkSeqQueue Nat 2 0)) ∧
     ((mkSeqQueue Nat 2 0).maxsize ≤ 0 →
        putEnter (mkSeqQueue Nat 2 0) (1, 5) true (some (-1)) 3 =
          .inserted (doInsert (mkSeqQueue Nat 2 0) (1, 5)))) :=
  ⟨by decide, claim4_negative_timeout (mkSeqQueue Nat 2 0) (1, 5) (-1) 3 (by decide)⟩

/-- C5: a timed `put` (`block=true`, `timeout = t ≥ 0`, `maxsize > 0`) whose
slot is inadmissible registers its `(index, handle)` pair in the
waiting-producers registry and suspends; on wake-up it re-checks
admissibility: if the slot became admissible it inserts rather than failing,
and if still inadmissible it removes exactly its own registration and raises
`Full`, so that with no interference the whole timed-out call leaves storage,
cursor and registry exactly as before it, and a later `put` of the same index
still succeeds once the slot is admissible. -/
theorem claim5_timed_put {α : Type} (q : SeqQueue α) (item : Int × α) (t : Int) (h : Nat)
    (hm : q.maxsize > 0) (ht : 0 ≤ t) (hfull : slot_empty q item.1 = false)
    (hfresh : (item.1, h) ∉ q.waitingToPut) :
    putEnter q item true (some t) h =
      .waiting { q with waitingToPut := heapPushEntry q.waitingToPut (item.1, h) } ∧
    (∀ q' : SeqQueue α, slot_empty q' item.1 = false → (item.1, h) ∈ q'.waitingToPut →
       putResumeTimed q' item h =
         some (.fullErr { q' with waitingToPut := q'.waitingToPut.erase (item.1, h) })) ∧
    (∀ q' : SeqQueue α, slot_empty q' item.1 = true →
       putResumeTimed q' item h = some (.inserted (doInsert q' item))) ∧
    putResumeTimed { q with waitingToPut := heapPushEntry q.waitingToPut (item.1, h) } item h =
      some (.fullErr q) ∧
    (∀ q'' : SeqQueue α, slot_empty q'' item.1 = true → ∀ h' : Nat,
       putEnter q'' item true none h' = .inserted (doInsert q'' item)) := by
  refine ⟨?_, ?_, ?_, ?_, ?_⟩
  · simp [putEnter, hm, not_lt.2 ht, hfull]
  · intro q' hfull' hmem
    simp [putResumeTimed, hfull', removeWaiter_eq_erase hmem]
  · intro q' hok
    simp [putResumeTimed, hok]
  · have hfull1 : slot_empty
        { q with waitingToPut := heapPushEntry q.waitingToPut (item.1, h) } item.1 = false := by
      simpa [slot_empty] using hfull
    simp [putResumeTimed, hfull1, removeWaiter_heapPushEntry hfresh]
  · intro q'' hok h'
    by_cases hm'' : q''.maxsize > 0
    · simp [putEnter, hm'', hok]
    · simp [putEnter, hm'']

/-- C5 witness: a full one-slot queue; the timed put of index 1 registers,
times out, cleans up after itself, and the same index succeeds later. -/
theorem claim5_timed_put_witness :
    slot_empty wq5 1 = false ∧
    (putEnter wq5 (1, 7) true (some 0) 5 = .waiting wq5r) ∧
    (putResumeTimed wq5r (1, 7) 5 = some (.fullErr wq5)) :=
  ⟨by decide,
   (claim5_timed_put wq5 (1, 7) 0 5 (by decide) (by decide) (by decide) (by decide)).1,
   (claim5_timed_put wq5 (1, 7) 0 5 (by decide) (by decide) (by decide) (by decide)).2.2.2.1⟩

theorem popNotify_fields {α : Type} (q : SeqQueue α) :
    (popNotify q).maxsize = q.maxsize ∧ (popNotify q).indexShift = q.indexShift ∧
    (popNotify q).queue = q.queue := by
  cases hw : q.waitingToPut with
  | nil => simp [popNotify, hw]
  | cons w ws => by_cases h : slot_empty q w.1 = true <;> simp [popNotify, hw, h]

theorem getEnter_got {α : Type} {q : SeqQueue α} {b : Bool} {t : Option Int}
    {e : Int × α} {q' : SeqQueue α} (hg : getEnter q b t = .got e q') :
    ∃ rest, q.queue = e :: rest ∧ e.1 = q.indexShift ∧
      q' = popNotify { q with queue := rest, indexShift := q.indexShift + 1 } := by
  have hready : slot_ready q = true ∧ getPop q = .got e q' := by
    unfold getEnter at hg
    cases b with
    | false =>
      by_cases hr : slot_ready q = true <;> simp_all
    | true =>
      cases t with
      | none => by_cases hr : slot_ready q = true <;> simp_all
      | some tv =>
        by_cases htv : tv < 0 <;> by_cases hr : slot_ready q = true <;> simp_all
  obtain ⟨hready, hpop⟩ := hready
  obtain ⟨e0, rest, hq, he0⟩ := (slot_ready_iff q).1 hready
  unfold getPop at hpop
  rw [hq] at hpop
  simp only [GetOutcome.got.injEq] at hpop
  obtain ⟨rfl, rfl⟩ := hpop
  exact ⟨rest, hq, he0, rfl⟩

theorem intRange_length (s : Int) (n : Nat) : (intRange s n).length = n := by
  induction n generalizing s with
  | zero => rfl
  | succ n ih => simp [intRange, ih]

theorem intRange_chain_and_lb (s : Int) (n : Nat) :
    (intRange s n).Chain' (· < ·) ∧ ∀ x ∈ intRange s n, s ≤ x := by
  induction n generalizing s with
  | zero => simp [intRange]
  | succ n ih =>
    obtain ⟨hchain, hlb⟩ := ih (s + 1)
    refine ⟨?_, ?_⟩
    · rw [intRange, List.chain'_cons']
      refine ⟨?_, hchain⟩
      intro y hy
      have : y ∈ intRange (s + 1) n := List.mem_of_mem_head? hy
      have := hlb y this
      omega
    · intro x hx
      rw [intRange, List.mem_cons] at hx
      rcases hx with rfl | hx
      · exact le_refl x
      · have := hlb x hx
        omega

/-- Central trace lemma: a successful run of non-blocking operations returns
from its `get` calls exactly the consecutive indices starting at the initial
cursor, advances the cursor by the number of `get` calls, and conserves
entries (initial storage plus inserted entries is a permutation of returned
entries plus final storage). -/
theorem runOps_spec {α : Type} :
    ∀ (ops : List (Op α)) (q qf : SeqQueue α) (outs : List (Int × α)),
      runOps q ops = some (qf, outs) →
      outs.length = numGets ops ∧
      outs.map Prod.fst = intRange q.indexShift (numGets ops) ∧
      qf.indexShift = q.indexShift + numGets ops ∧
      (q.queue ++ putsOf ops).Perm (outs ++ qf.queue) := by
  intro ops
  induction ops with
  | nil =>
    intro q qf outs hrun
    simp only [runOps, Option.some.injEq, Prod.mk.injEq] at hrun
    obtain ⟨rfl, rfl⟩ := hrun
    simp [numGets, intRange, putsOf]
  | cons op ops ih =>
    intro q qf outs hrun
    cases op with
    | put item =>
      rw [runOps, putEnter_false_eq] at hrun
      by_cases hc : q.maxsize > 0 ∧ slot_empty q item.1 = false
      · simp [hc] at hrun
      · simp only [hc, if_false] at hrun
        obtain ⟨h1, h2, h3, h4⟩ := ih (doInsert q item) qf outs hrun
        have hsh : (doInsert q item).indexShift = q.indexShift := rfl
        refine ⟨by simpa [numGets] using h1, by simpa [numGets, hsh] using h2,
          by simpa [numGets, hsh] using h3, ?_⟩
        have hq : (heapPushEntry q.queue item).Perm (item :: q.queue) :=
          heapPushEntry_perm _ _
        have step1 : (q.queue ++ item :: putsOf ops).Perm ((item :: q.queue) ++ putsOf ops) :=
          List.perm_middle
        have step2 : ((item :: q.queue) ++ putsOf ops).Perm
            ((doInsert q item).queue ++ putsOf ops) :=
          hq.symm.append_right (putsOf ops)
        simpa [putsOf] using (step1.trans step2).trans h4
    | get =>
      rw [runOps] at hrun
      cases hg : getEnter q false none with
      | got e q' =>
        rw [hg] at hrun
        simp only [Option.map_eq_some'] at hrun
        obtain ⟨r, hr, heq⟩ := hrun
        obtain ⟨rfl, rfl⟩ : r.1 = qf ∧ e :: r.2 = outs := by
          have h1 := congrArg Prod.fst heq
          have h2 := congrArg Prod.snd heq
          exact ⟨h1, h2⟩
        obtain ⟨rest, hq, he, hq'⟩ := getEnter_got hg
        obtain ⟨h1, h2, h3, h4⟩ := ih q' r.1 r.2 (by simpa using hr)
        have hq'fields := popNotify_fields
          { q with queue := rest, indexShift := q.indexShift + 1 }
        have hq'shift : q'.indexShift = q.indexShift + 1 := by
          rw [hq']; exact hq'fields.2.1
        have hq'queue : q'.queue = rest := by
          rw [hq']; exact hq'fields.2.2
        refine ⟨by simpa [numGets] using h1, ?_, ?_, ?_⟩
        · rw [numGets]
          rw [intRange, ← he]
          simp only [List.map_cons]
          rw [h2, hq'shift, he]
        · rw [numGets, h3, hq'shift]
          push_cast
          ring
        · rw [putsOf, hq]
          have lhs : ((e :: rest) ++ putsOf ops) = e :: (rest ++ putsOf ops) := rfl
          rw [lhs]
          have : (rest ++ putsOf ops).Perm (r.2 ++ r.1.queue) := by
            rw [← hq'queue]; exact h4
          exact this.cons e
      | emptyErr q1 => rw [hg] at hrun; simp at hrun
      | invalidErr q1 => rw [hg] at hrun; simp at hrun
      | waiting q1 => rw [hg] at hrun; simp at hrun
    | size =>
      rw [runOps] at hrun
      obtain ⟨h1, h2, h3, h4⟩ := ih q qf outs hrun
      exact ⟨by simpa [numGets] using h1, by simpa [numGets] using h2,
        by simpa [numGets] using h3, by simpa [putsOf] using h4⟩

/-- C1: for every `N` and every interleaving (trace) of successful `put`
calls inserting the distinct indices of the contiguous range
`[start_index, start_index + N)` in any order with `N` successful `get`
calls, the `get` calls return exactly the inserted entries, in strictly
increasing index order, each exactly once, with no omissions. -/
theorem claim1_order_invariant {α : Type} (maxsize start_index : Int) (N : Nat)
    (ops : List (Op α)) (qf : SeqQueue α) (outs : List (Int × α))
    (hrun : runOps (mkSeqQueue α maxsize start_index) ops = some (qf, outs))
    (hputs : ((putsOf ops).map Prod.fst).Perm (intRange start_index N))
    (hg : numGets ops = N) :
    outs.map Prod.fst = intRange start_index N ∧
    (outs.map Prod.fst).Chain' (· < ·) ∧
    outs.Perm (putsOf ops) := by
  obtain ⟨hlen, hmap, hshift, hperm⟩ := runOps_spec ops _ qf outs hrun
  rw [hg] at hlen hmap
  have hstart : (mkSeqQueue α maxsize start_index).indexShift = start_index := rfl
  rw [hstart] at hmap
  have hqueue0 : (mkSeqQueue α maxsize start_index).queue = [] := rfl
  rw [hqueue0] at hperm
  simp only [List.nil_append] at hperm
  have hputlen : (putsOf ops).length = N := by
    have := hputs.length_eq
    rw [intRange_length] at this
    simpa using this
  have houtlen : outs.length = N := hlen
  have hqf : qf.queue = [] := by
    have := hperm.length_eq
    rw [List.length_append, hputlen, houtlen] at this
    exact List.length_eq_zero.1 (by omega)
  rw [hqf, List.append_nil] at hperm
  exact ⟨hmap, hmap ▸ (intRange_chain_and_lb start_index N).1, hperm.symm⟩

/-- C1 witness: two puts of indices 0 and 1 interleaved with two gets on an
unbounded queue. -/
theorem claim1_order_invariant_witness :
    [((0 : Int), (10 : Nat)), (1, 20)].map Prod.fst = intRange 0 2 ∧
    ([((0 : Int), (10 : Nat)), (1, 20)].map Prod.fst).Chain' (· < ·) ∧
    [((0 : Int), (10 : Nat)), (1, 20)].Perm
      (putsOf [Op.put ((0 : Int), (10 : Nat)), Op.put (1, 20), Op.get, Op.get]) :=
  claim1_order_invariant 0 0 2
    [Op.put ((0 : Int), (10 : Nat)), Op.put (1, 20), Op.get, Op.get]
    (SeqQueue.mk 0 2 [] [] 2) [((0 : Int), (10 : Nat)), (1, 20)]
    (by decide) (by decide) (by decide)

theorem getPop_cases {α : Type} (q : SeqQueue α) :
    (∃ e rest, q.queue = e :: rest ∧
       getPop q = .got e (popNotify { q with queue := rest, indexShift := q.indexShift + 1 })) ∨
    (q.queue = [] ∧ getPop q = .emptyErr q) := by
  cases hq : q.queue with
  | nil => exact Or.inr ⟨rfl, by simp [getPop, hq]⟩
  | cons e rest => exact Or.inl ⟨e, rest, rfl, by simp [getPop, hq]⟩

theorem getEnter_shape {α : Type} (q : SeqQueue α) (b : Bool) (t : Option Int) :
    (∃ e q', getEnter q b t = .got e q') ∨ getEnter q b t = .emptyErr q ∨
      getEnter q b t = .invalidErr q ∨ getEnter q b t = .waiting q := by
  have hgp : (∃ e q', getPop q = .got e q') ∨ getPop q = .emptyErr q := by
    rcases getPop_cases q with ⟨e, rest, _, hgp⟩ | ⟨_, hgp⟩
    · exact Or.inl ⟨e, _, hgp⟩
    · exact Or.inr hgp
  unfold getEnter
  cases b <;> rcases t with _ | tv <;> dsimp only <;> split_ifs <;>
    first
      | exact Or.inr (Or.inl rfl)
      | exact Or.inr (Or.inr (Or.inl rfl))
      | exact Or.inr (Or.inr (Or.inr rfl))
      | (rcases hgp with ⟨e, q', hgp⟩ | hgp
         · exact Or.inl ⟨e, q', hgp⟩
         · exact Or.inr (Or.inl hgp))

theorem getEnter_frame {α : Type} {q q' : SeqQueue α} (b : Bool) (t : Option Int)
    (hE : getEnter q b t = .emptyErr q' ∨ getEnter q b t = .invalidErr q' ∨
      getEnter q b t = .waiting q') : q' = q := by
  rcases getEnter_shape q b t with ⟨e, q1, hs⟩ | hs | hs | hs <;>
    rcases hE with h0 | h0 | h0 <;> rw [hs] at h0 <;> simp_all

theorem putEnter_shape {α : Type} (q : SeqQueue α) (item : Int × α) (b : Bool)
    (t : Option Int) (h : Nat) :
    putEnter q item b t h = .inserted (doInsert q item) ∨
    putEnter q item b t h = .fullErr q ∨
    putEnter q item b t h = .invalidErr q ∨
    putEnter q item b t h =
      .waiting { q with waitingToPut := heapPushEntry q.waitingToPut (item.1, h) } := by
  unfold putEnter
  cases b <;> rcases t with _ | tv <;> dsimp only <;> split_ifs <;> simp_all

theorem stepT_maxsize {α : Type} (q : SeqQueue α) (op : Op α) :
    (stepT q op).maxsize = q.maxsize := by
  cases op with
  | put item =>
    rcases putEnter_shape q item false none 0 with hs | hs | hs | hs <;>
      simp [stepT, hs, PutOutcome.state, doInsert]
  | get =>
    cases hg : getEnter q false none with
    | got e q' =>
      obtain ⟨rest, hq, he, hq'⟩ := getEnter_got hg
      have hf := (popNotify_fields { q with queue := rest, indexShift := q.indexShift + 1 }).1
      simp [stepT, hg, GetOutcome.state, hq', hf]
    | emptyErr q1 =>
      have h0 := getEnter_frame false none (Or.inl hg)
      simp [stepT, hg, GetOutcome.state, h0]
    | invalidErr q1 =>
      have h0 := getEnter_frame false none (Or.inr (Or.inl hg))
      simp [stepT, hg, GetOutcome.state, h0]
    | waiting q1 =>
      have h0 := getEnter_frame false none (Or.inr (Or.inr hg))
      simp [stepT, hg, GetOutcome.state, h0]
  | size => simp [stepT]

theorem stepT_indexShift_le {α : Type} (q : SeqQueue α) (op : Op α) :
    q.indexShift ≤ (stepT q op).indexShift := by
  cases op with
  | put item =>
    rcases putEnter_shape q item false none 0 with hs | hs | hs | hs <;>
      simp [stepT, hs, PutOutcome.state, doInsert]
  | get =>
    cases hg : getEnter q false none with
    | got e q' =>
      obtain ⟨rest, hq, he, hq'⟩ := getEnter_got hg
      have hf := (popNotify_fields { q with queue := rest, indexShift := q.indexShift + 1 }).2.1
      simp only [stepT, hg, GetOutcome.state, hq', hf]
      omega
    | emptyErr q1 =>
      have h0 := getEnter_frame false none (Or.inl hg)
      simp [stepT, hg, GetOutcome.state, h0]
    | invalidErr q1 =>
      have h0 := getEnter_frame false none (Or.inr (Or.inl hg))
      simp [stepT, hg, GetOutcome.state, h0]
    | waiting q1 =>
      have h0 := getEnter_frame false none (Or.inr (Or.inr hg))
      simp [stepT, hg, GetOutcome.state, h0]
  | size => simp [stepT]

theorem runT_indexShift_le {α : Type} (q : SeqQueue α) (ops : List (Op α)) :
    q.indexShift ≤ (runT q ops).indexShift := by
  induction ops generalizing q with
  | nil => exact le_refl _
  | cons op ops ih =>
    exact le_trans (stepT_indexShift_le q op) (ih (stepT q op))

/-- C7: the cursor is initialised to `start_index` at construction; every
successful `get` (any blocking mode) returns the entry whose index is the
pre-call cursor and increments the cursor by exactly 1; every failing `get`
returns the untouched pre-call state; every `put` outcome — inserting,
failing, or suspending — and the `put` timeout resumption leave the cursor
unchanged; hence the cursor is monotonically non-decreasing over every
operation sequence. -/
theorem claim7_cursor {α : Type} (maxsize start_index : Int) (q : SeqQueue α)
    (item : Int × α) (h : Nat) (ops : List (Op α)) :
    (mkSeqQueue α maxsize start_index).indexShift = start_index ∧
    (∀ (b : Bool) (t : Option Int) (e : Int × α) (q' : SeqQueue α),
       getEnter q b t = .got e q' →
       e.1 = q.indexShift ∧ q'.indexShift = q.indexShift + 1) ∧
    (∀ (b : Bool) (t : Option Int) (q' : SeqQueue α),
       getEnter q b t = .emptyErr q' ∨ getEnter q b t = .invalidErr q' ∨
         getEnter q b t = .waiting q' → q' = q) ∧
    (∀ (b : Bool) (t : Option Int),
       ((putEnter q item b t h).state).indexShift = q.indexShift) ∧
    (∀ r, putResumeTimed q item h = some r → r.state.indexShift = q.indexShift) ∧
    stepT q Op.size = q ∧
    q.indexShift ≤ (runT q ops).indexShift := by
  refine ⟨rfl, ?_, ?_, ?_, ?_, rfl, runT_indexShift_le q ops⟩
  · intro b t e q' hg
    obtain ⟨rest, hq, he, hq'⟩ := getEnter_got hg
    have hf := (popNotify_fields { q with queue := rest, indexShift := q.indexShift + 1 }).2.1
    exact ⟨he, by rw [hq', hf]⟩
  · intro b t q' hE
    exact getEnter_frame b t hE
  · intro b t
    rcases putEnter_shape q item b t h with hs | hs | hs | hs <;>
      simp [hs, PutOutcome.state, doInsert]
  · intro r hr
    unfold putResumeTimed at hr
    by_cases hse : slot_empty q item.1 = true
    · rw [if_pos hse] at hr
      obtain rfl : PutOutcome.inserted (doInsert q item) = r := by
        injection hr
      simp [PutOutcome.state, doInsert]
    · rw [if_neg hse] at hr
      cases hrw : removeWaiter q.waitingToPut (item.1, h) with
      | none => rw [hrw] at hr; cases hr
      | some ws =>
        rw [hrw] at hr
        obtain rfl : PutOutcome.fullErr { q with waitingToPut := ws } = r := by
          injection hr
        simp [PutOutcome.state]

/-- C7 witness: construction cursor, a successful get bumping the cursor, and
monotonicity over a short trace, at a concrete queue. -/
theorem claim7_cursor_witness :
    (mkSeqQueue Nat 4 7).indexShift = 7 ∧
    wq7.indexShift ≤ (runT wq7 [Op.get, Op.size]).indexShift :=
  ⟨(claim7_cursor 4 7 wq7 (1, 9) 0 [Op.get, Op.size]).1,
   (claim7_cursor 4 7 wq7 (1, 9) 0 [Op.get, Op.size]).2.2.2.2.2.2⟩

/-- C8: a successful `get` (any blocking mode) removes at most one entry from
the waiting-producers registry: exactly the head — the minimum-index waiter,
by the registry's heap order — and only when the registry is non-empty and
that waiter's index is admissible under the incremented cursor
(`w.index − (cursor + 1) < maxsize`); otherwise the registry is exactly
unchanged, and a failing `get` never touches it. -/
theorem claim8_targeted_wakeup {α : Type} (q : SeqQueue α) (hreg : RegSorted q) :
    (∀ (b : Bool) (t : Option Int) (e : Int × α) (q' : SeqQueue α),
       getEnter q b t = .got e q' →
       (q.waitingToPut = [] → q'.waitingToPut = []) ∧
       (∀ w ws, q.waitingToPut = w :: ws →
          (∀ x ∈ q.waitingToPut, w.1 ≤ x.1) ∧
          (w.1 - (q.indexShift + 1) < q.maxsize → q'.waitingToPut = ws) ∧
          (¬ w.1 - (q.indexShift + 1) < q.maxsize → q'.waitingToPut = w :: ws))) ∧
    (∀ (b : Bool) (t : Option Int) (q' : SeqQueue α),
       getEnter q b t = .emptyErr q' ∨ getEnter q b t = .invalidErr q' ∨
         getEnter q b t = .waiting q' → q'.waitingToPut = q.waitingToPut) := by
  constructor
  · intro b t e q' hg
    obtain ⟨rest, hq, he, hq'⟩ := getEnter_got hg
    constructor
    · intro hw
      rw [hq']
      simp [popNotify, hw]
    · intro w ws hw
      refine ⟨?_, ?_, ?_⟩
      · intro x hx
        rw [hw] at hx
        rcases List.mem_cons.1 hx with rfl | hx
        · exact le_refl _
        · unfold RegSorted at hreg
          rw [hw] at hreg
          exact (List.pairwise_cons.1 hreg).1 x hx
      · intro hadm
        rw [hq']
        simp [popNotify, hw, slot_empty, hadm]
      · intro hadm
        rw [hq']
        simp [popNotify, hw, slot_empty, hadm]
  · intro b t q' hE
    rw [getEnter_frame b t hE]

/-- C8 witness: a get with one admissible waiter pops exactly that waiter. -/
theorem claim8_targeted_wakeup_witness :
    RegSorted wq8 ∧
    (getEnter wq8 false none = .got ((0 : Int), 5) wq8' →
     (wq8.waitingToPut = [] → wq8'.waitingToPut = []) ∧
     (∀ w ws, wq8.waitingToPut = w :: ws →
        (∀ x ∈ wq8.waitingToPut, w.1 ≤ x.1) ∧
        (w.1 - (wq8.indexShift + 1) < wq8.maxsize → wq8'.waitingToPut = ws) ∧
        (¬ w.1 - (wq8.indexShift + 1) < wq8.maxsize → wq8'.waitingToPut = w :: ws))) :=
  ⟨by unfold RegSorted wq8; decide,
   (claim8_targeted_wakeup wq8 (by unfold RegSorted wq8; decide)).1
     false none ((0 : Int), 5) wq8'⟩

/-- C9: `size` reports stored-but-undelivered entries: over any successful
trace from a fresh queue, the storage count equals the number of inserted
entries minus the number of delivered ones; concretely, a fresh queue with
`start_index = 0` after `put (1, x)` and `put (2, y)` reports size 2 even
though `get(block=false)` raises `Empty`. -/
theorem claim9_size {α : Type} (maxsize start_index : Int) (ops : List (Op α))
    (qf : SeqQueue α) (outs : List (Int × α))
    (hrun : runOps (mkSeqQueue α maxsize start_index) ops = some (qf, outs)) :
    qsize qf + numGets ops = (putsOf ops).length ∧
    (runOps (mkSeqQueue Nat 3 0) [Op.put (1, 10), Op.put (2, 20)] = some (wq9, []) ∧
     qsize wq9 = 2 ∧
     getEnter wq9 false none = .emptyErr wq9) := by
  constructor
  · obtain ⟨hlen, _, _, hperm⟩ := runOps_spec ops _ qf outs hrun
    have hq0 : (mkSeqQueue α maxsize start_index).queue = [] := rfl
    rw [hq0] at hperm
    have := hperm.length_eq
    simp only [List.nil_append, List.length_append] at this
    unfold qsize
    omega
  · exact ⟨by decide, by decide, by decide⟩

/-- C9 witness: the conserved-count equation on a concrete trace with one
withheld out-of-order entry. -/
theorem claim9_size_witness :
    qsize wq9 + numGets [Op.put ((1 : Int), (10 : Nat)), Op.put (2, 20)] =
      (putsOf [Op.put ((1 : Int), (10 : Nat)), Op.put (2, 20)]).length :=
  (claim9_size 3 0 [Op.put ((1 : Int), (10 : Nat)), Op.put (2, 20)] wq9 [] (by decide)).1

theorem runT_maxsize {α : Type} (q : SeqQueue α) (ops : List (Op α)) :
    (runT q ops).maxsize = q.maxsize := by
  induction ops generalizing q with
  | nil => rfl
  | cons op ops ih =>
    simp only [runT]
    rw [ih, stepT_maxsize]

theorem runT_window_aux {α : Type} :
    ∀ (ops : List (Op α)) (q : SeqQueue α), 0 < q.maxsize → StorageSortedLt q → InWindow q →
      putsOk q ops = true →
      0 < (runT q ops).maxsize ∧ StorageSortedLt (runT q ops) ∧ InWindow (runT q ops) := by
  intro ops
  induction ops with
  | nil =>
    intro q hm hs hw _
    exact ⟨hm, hs, hw⟩
  | cons op ops ih =>
    intro q hm hs hw hok
    show 0 < (runT (stepT q op) ops).maxsize ∧ StorageSortedLt (runT (stepT q op) ops) ∧
      InWindow (runT (stepT q op) ops)
    have hm' : 0 < (stepT q op).maxsize := by
      rw [stepT_maxsize]; exact hm
    cases op with
    | put item =>
      have hok' : (q.indexShift ≤ item.1 ∧ item.1 ∉ q.queue.map Prod.fst) ∧
          putsOk (stepT q (.put item)) ops = true := by
        simpa [putsOk] using hok
      obtain ⟨⟨hle, hni⟩, hok'⟩ := hok'
      by_cases hc : q.maxsize > 0 ∧ slot_empty q item.1 = false
      · have hst : stepT q (.put item) = q := by
          simp [stepT, putEnter_false_eq, hc, PutOutcome.state]
        rw [hst] at hok' ⊢
        exact ih q hm hs hw hok'
      · have hse : slot_empty q item.1 = true := by
          rcases Bool.eq_false_or_eq_true (slot_empty q item.1) with h0 | h0
          · exact h0
          · exact absurd ⟨hm, h0⟩ hc
        have hst : stepT q (.put item) = doInsert q item := by
          simp [stepT, putEnter_false_eq, hc, PutOutcome.state]
        rw [hst] at hok' ⊢
        have hfresh : ∀ x ∈ q.queue, x.1 ≠ item.1 := by
          intro x hx hxe
          exact hni (hxe ▸ List.mem_map_of_mem Prod.fst hx)
        have hs' : StorageSortedLt (doInsert q item) :=
          heapPushEntry_pairwise_lt hs hfresh
        have hw' : InWindow (doInsert q item) := by
          intro x hx
          have hsh : (doInsert q item).indexShift = q.indexShift := rfl
          have hms : (doInsert q item).maxsize = q.maxsize := rfl
          rw [hsh, hms]
          have hslot := (slot_empty_iff q item.1).1 hse
          rcases mem_heapPushEntry.1 hx with rfl | hx
          · exact ⟨hle, by omega⟩
          · exact hw x hx
        exact ih (doInsert q item) (by simpa [doInsert] using hm) hs' hw'
          hok'
    | get =>
      have hok' : putsOk (stepT q .get) ops = true := by
        simpa [putsOk] using hok
      cases hg : getEnter q false none with
      | got e q' =>
        obtain ⟨rest, hq, he, hq'⟩ := getEnter_got hg
        have hst : stepT q .get = q' := by simp [stepT, hg, GetOutcome.state]
        have hfields := popNotify_fields { q with queue := rest, indexShift := q.indexShift + 1 }
        have hq'm : q'.maxsize = q.maxsize := by rw [hq']; exact hfields.1
        have hq'sh : q'.indexShift = q.indexShift + 1 := by rw [hq']; exact hfields.2.1
        have hq'qu : q'.queue = rest := by rw [hq']; exact hfields.2.2
        have hs' : StorageSortedLt q' := by
          unfold StorageSortedLt
          rw [hq'qu]
          unfold StorageSortedLt at hs
          rw [hq] at hs
          exact (List.pairwise_cons.1 hs).2
        have hw' : InWindow q' := by
          intro x hx
          rw [hq'qu] at hx
          have hxw := hw x (by rw [hq]; exact List.mem_cons_of_mem e hx)
          have hxgt : e.1 < x.1 := by
            unfold StorageSortedLt at hs
            rw [hq] at hs
            exact (List.pairwise_cons.1 hs).1 x hx
          rw [hq'sh, hq'm]
          omega
        rw [hst] at hok' ⊢
        exact ih q' (by rw [hq'm]; exact hm) hs' hw' hok'
      | emptyErr q1 =>
        have h0 := getEnter_frame false none (Or.inl hg)
        have hst : stepT q .get = q := by simp [stepT, hg, GetOutcome.state, h0]
        rw [hst] at hok' ⊢
        exact ih q hm hs hw hok'
      | invalidErr q1 =>
        have h0 := getEnter_frame false none (Or.inr (Or.inl hg))
        have hst : stepT q .get = q := by simp [stepT, hg, GetOutcome.state, h0]
        rw [hst] at hok' ⊢
        exact ih q hm hs hw hok'
      | waiting q1 =>
        have h0 := getEnter_frame false none (Or.inr (Or.inr hg))
        have hst : stepT q .get = q := by simp [stepT, hg, GetOutcome.state, h0]
        rw [hst] at hok' ⊢
        exact ih q hm hs hw hok'
    | size =>
      have hok' : putsOk (stepT q .size) ops = true := by
        simpa [putsOk] using hok
      exact ih q hm hs hw hok'

/-- C6: with `maxsize = m > 0`, under the precondition that every `put` in
the trace inserts an index that is at least the cursor and not already
stored (the per-step form of index uniqueness), every sequence of `put`,
`get` and `size` operations preserves the invariant that every stored
entry's index lies in the half-open window `[cursor, cursor + m)`. -/
theorem claim6_backpressure_window {α : Type} (m : Int) (q : SeqQueue α) (ops : List (Op α))
    (hm : 0 < m) (hqm : q.maxsize = m) (hs : StorageSortedLt q) (hw : InWindow q)
    (hok : putsOk q ops = true) :
    ∀ e ∈ (runT q ops).queue,
      (runT q ops).indexShift ≤ e.1 ∧ e.1 < (runT q ops).indexShift + m := by
  obtain ⟨hm', hs', hw'⟩ := runT_window_aux ops q (hqm ▸ hm) hs hw hok
  have hms : (runT q ops).maxsize = m := by rw [runT_maxsize]; exact hqm
  intro e he
  have := hw' e he
  rw [hms] at this
  exact this

/-- C6 witness: a bounded queue with `m = 2` and a trace of admissible puts
and one get. -/
theorem claim6_backpressure_window_witness :
    putsOk (mkSeqQueue Nat 2 0)
      [Op.put ((0 : Int), 5), Op.put (1, 6), Op.get, Op.put (2, 7)] = true ∧
    ∀ e ∈ (runT (mkSeqQueue Nat 2 0)
        [Op.put ((0 : Int), 5), Op.put (1, 6), Op.get, Op.put (2, 7)]).queue,
      (runT (mkSeqQueue Nat 2 0)
          [Op.put ((0 : Int), 5), Op.put (1, 6), Op.get, Op.put (2, 7)]).indexShift ≤ e.1 ∧
        e.1 < (runT (mkSeqQueue Nat 2 0)
          [Op.put ((0 : Int), 5), Op.put (1, 6), Op.get, Op.put (2, 7)]).indexShift + 2 :=
  ⟨by decide,
   claim6_backpressure_window 2 (mkSeqQueue Nat 2 0)
     [Op.put ((0 : Int), 5), Op.put (1, 6), Op.get, Op.put (2, 7)]
     (by decide) (by decide) (by unfold StorageSortedLt; decide)
     (by unfold InWindow; decide) (by decide)⟩

theorem wedged_not_ready {α : Type} {q : SeqQueue α} (hs : StorageSortedLe q)
    (hw : Wedged q) : slot_ready q = false := by
  obtain ⟨x, hx, hxlt⟩ := hw
  cases hq : q.queue with
  | nil => simp [slot_ready, hq]
  | cons e rest =>
    have hle : e.1 ≤ x.1 := by
      rw [hq] at hx
      rcases List.mem_cons.1 hx with rfl | hx
      · exact le_refl _
      · unfold StorageSortedLe at hs
        rw [hq] at hs
        exact (List.pairwise_cons.1 hs).1 x hx
    simp only [slot_ready, hq]
    rw [beq_eq_false_iff_ne]
    omega

theorem stepT_wedged {α : Type} (q : SeqQueue α) (op : Op α)
    (hs : StorageSortedLe q) (hw : Wedged q) :
    StorageSortedLe (stepT q op) ∧ Wedged (stepT q op) := by
  cases op with
  | put item =>
    show StorageSortedLe (putEnter q item false none 0).state ∧
      Wedged (putEnter q item false none 0).state
    rcases putEnter_shape q item false none 0 with hp | hp | hp | hp <;> rw [hp]
    · obtain ⟨x, hx, hxlt⟩ := hw
      exact ⟨heapPushEntry_pairwise_le item hs, x, mem_heapPushEntry.2 (Or.inr hx), hxlt⟩
    · exact ⟨hs, hw⟩
    · exact ⟨hs, hw⟩
    · exact ⟨hs, hw⟩
  | get =>
    have hnr : slot_ready q = false := wedged_not_ready hs hw
    have hg : getEnter q false none = .emptyErr q := by
      rw [getEnter_false_eq, hnr]
      simp
    have hst : stepT q .get = q := by simp [stepT, hg, GetOutcome.state]
    rw [hst]
    exact ⟨hs, hw⟩
  | size => exact ⟨hs, hw⟩

theorem runT_wedged {α : Type} (ops : List (Op α)) (q : SeqQueue α)
    (hs : StorageSortedLe q) (hw : Wedged q) :
    StorageSortedLe (runT q ops) ∧ Wedged (runT q ops) := by
  induction ops generalizing q with
  | nil => exact ⟨hs, hw⟩
  | cons op ops ih =>
    obtain ⟨hs', hw'⟩ := stepT_wedged q op hs hw
    exact ih (stepT q op) hs' hw'

/-- C10 (implicit): `put` performs no validation of its index — every index
inside the capacity window (or any index at all when `maxsize ≤ 0`) is
inserted, including indices strictly below the cursor; and once some stored
index is strictly below the cursor, readiness is false and remains false
under every subsequent non-blocking operation (the cursor only advances on a
successful `get`, which cannot happen), so every subsequent
`get(block=false)` raises `Empty` despite non-empty storage. -/
theorem claim10_stale_wedge {α : Type} (q : SeqQueue α) (i : Int) (a : α) (ops : List (Op α))
    (hadm : q.maxsize ≤ 0 ∨ i - q.indexShift < q.maxsize)
    (hs : StorageSortedLe q) (hw : Wedged q) :
    putEnter q (i, a) false none 0 = .inserted (doInsert q (i, a)) ∧
    slot_ready q = false ∧
    getEnter q false none = .emptyErr q ∧
    Wedged (runT q ops) ∧
    getEnter (runT q ops) false none = .emptyErr (runT q ops) := by
  have hnr := wedged_not_ready hs hw
  obtain ⟨hs', hw'⟩ := runT_wedged ops q hs hw
  have hnr' := wedged_not_ready hs' hw'
  refine ⟨?_, hnr, ?_, hw', ?_⟩
  · rw [putEnter_false_eq]
    have hnc : ¬ (q.maxsize > 0 ∧ slot_empty q (i, a).1 = false) := by
      rintro ⟨hm0, hsef⟩
      rcases hadm with h0 | h0
      · omega
      · have := (slot_empty_iff q i).2 h0
        simp_all
    simp [hnc]
  · rw [getEnter_false_eq, hnr]
    simp
  · rw [getEnter_false_eq, hnr']
    simp

/-- C10 witness: a queue whose only stored index (0) is below the cursor (5);
a put of index 4 (also below the cursor) is admissible, and the wedge
persists across a further trace. -/
theorem claim10_stale_wedge_witness :
    Wedged wq10 ∧
    (putEnter wq10 (4, 8) false none 0 = .inserted (doInsert wq10 (4, 8)) ∧
     slot_ready wq10 = false ∧
     getEnter wq10 false none = .emptyErr wq10 ∧
     Wedged (runT wq10 [Op.put (6, 1), Op.get, Op.size]) ∧
     getEnter (runT wq10 [Op.put (6, 1), Op.get, Op.size]) false none =
       .emptyErr (runT wq10 [Op.put (6, 1), Op.get, Op.size])) :=
  ⟨by unfold Wedged wq10; decide,
   claim10_stale_wedge wq10 4 8 [Op.put (6, 1), Op.get, Op.size] (by decide)
     (by unfold StorageSortedLe wq10; decide) (by unfold Wedged wq10; decide)⟩

end SeqQueueModel
